import Mathlib

/-!
Shallow embedding of the rag-mcp repository's core: the token-windowing
chunker (`src/rag_mcp/text_chunker.py`), the ingest/query orchestration
(`src/rag_mcp/rag.py`) and the vector-store adapter
(`src/rag_mcp/vector_store.py`), together with proofs checking the
natural-language specification against it.
-/

namespace RagMcp

/-- One pass of the `while start_index < len(tokens)` loop of
`TextChunker.chunk_text` (`src/rag_mcp/text_chunker.py`, lines 42-56), at
the level of token indices: each emitted pair `(start, e)` is the half-open
token window `tokens[start:e]` whose decoded form the Python code appends
to `chunks`.  The loop advances `start_index` by `chunk_size - chunk_overlap`
per iteration; `fuel` bounds the number of iterations (the token count is
always enough fuel, see `chunkStep_fuel_congr`).  The Python guard
`start_index >= len(tokens) - chunk_overlap` over the integers is rendered
as `n ≤ start2 + o` over the naturals. -/
def chunkStep (n c o : Nat) : Nat → Nat → List (Nat × Nat)
  | 0, _ => []
  | fuel + 1, start =>
    if start < n then
      let e := min (start + c) n
      if e = n then
        [(start, e)]
      else
        let start2 := start + (c - o)
        if n ≤ start2 + o ∧ e = n then
          [(start, e)]
        else
          (start, e) :: chunkStep n c o fuel start2
    else
      []

/-- The token windows produced by `TextChunker.chunk_text` on a text of `n`
tokens: the loop starts at `start_index = 0`, and `n` units of fuel always
suffice because every iteration either stops or advances the cursor by at
least one token. -/
def chunkWindows (n c o : Nat) : List (Nat × Nat) :=
  chunkStep n c o n 0

/-- The error raised by `chunk_text` when `chunk_overlap >= chunk_size`:
`ValueError("Chunk overlap must be less than chunk size.")`
(`src/rag_mcp/text_chunker.py`, lines 33-34). -/
inductive ChunkError where
  | invalidArgument
  deriving DecidableEq

/-- `TextChunker.chunk_text` at the token level.  `tokens` stands for
`self.tokenizer.encode(text)`; the function validates the overlap, returns
`[]` for an empty token sequence, and otherwise emits the slices
`tokens[start:end]` of the loop's windows.  Decoding each slice back to a
string is the tokenizer collaborator's job and is invertible on the token
windows, so the model keeps the slices themselves. -/
def chunk_text (tokens : List Nat) (c o : Nat) :
    Except ChunkError (List (List Nat)) :=
  if c ≤ o then
    Except.error ChunkError.invalidArgument
  else if tokens.isEmpty then
    Except.ok []
  else
    Except.ok ((chunkWindows tokens.length c o).map
      (fun w => (tokens.drop w.1).take (w.2 - w.1)))

theorem chunkStep_of_ge {n c o start : Nat} (fuel : Nat) (h : n ≤ start) :
    chunkStep n c o fuel start = [] := by
  cases fuel with
  | zero => rfl
  | succ f => simp [chunkStep, Nat.not_lt.2 h]

theorem chunkStep_of_lt {n c o start : Nat} (fuel : Nat) (h : start < n) :
    chunkStep n c o (fuel + 1) start =
      if n ≤ start + c then [(start, n)]
      else (start, start + c) :: chunkStep n c o fuel (start + (c - o)) := by
  by_cases hc : n ≤ start + c
  · have hmin : min (start + c) n = n := min_eq_right hc
    simp [chunkStep, h, hmin, hc]
  · have h1 : start + c < n := Nat.lt_of_not_le hc
    have hmin : min (start + c) n = start + c := min_eq_left (Nat.le_of_lt h1)
    have hne : start + c ≠ n := Nat.ne_of_lt h1
    simp [chunkStep, h, hmin, hc, hne]

theorem chunkStep_ne_nil {n c o : Nat} :
    ∀ fuel start, n ≤ start + fuel → start < n →
      chunkStep n c o fuel start ≠ [] := by
  intro fuel start hfuel hlt
  cases fuel with
  | zero => omega
  | succ f =>
    rw [chunkStep_of_lt f hlt]
    by_cases hc : n ≤ start + c <;> simp [hc]

theorem chunkStep_fuel_congr {n c o : Nat} (hoc : o < c) :
    ∀ f₁ f₂ start, n ≤ start + f₁ → n ≤ start + f₂ →
      chunkStep n c o f₁ start = chunkStep n c o f₂ start := by
  intro f₁
  induction f₁ with
  | zero =>
    intro f₂ start h₁ h₂
    have hge : n ≤ start := by omega
    rw [chunkStep_of_ge 0 hge, chunkStep_of_ge f₂ hge]
  | succ f ih =>
    intro f₂ start h₁ h₂
    by_cases hlt : start < n
    · obtain ⟨g, rfl⟩ : ∃ g, f₂ = g + 1 := by
        cases f₂ with
        | zero => omega
        | succ g => exact ⟨g, rfl⟩
      rw [chunkStep_of_lt f hlt, chunkStep_of_lt g hlt]
      by_cases hc : n ≤ start + c
      · simp [hc]
      · simp only [hc, if_false]
        have := ih g (start + (c - o)) (by omega) (by omega)
        rw [this]
    · have hge : n ≤ start := Nat.le_of_not_lt hlt
      rw [chunkStep_of_ge _ hge, chunkStep_of_ge _ hge]

theorem chunkStep_getElem {n c o : Nat} (hoc : o < c) :
    ∀ fuel start i w, n ≤ start + fuel →
      (chunkStep n c o fuel start)[i]? = some w →
      w.1 = start + i * (c - o) ∧ w.2 = min (w.1 + c) n ∧ w.1 < n := by
  intro fuel
  induction fuel with
  | zero =>
    intro start i w hfuel hw
    simp [chunkStep] at hw
  | succ f ih =>
    intro start i w hfuel hw
    by_cases hlt : start < n
    · rw [chunkStep_of_lt f hlt] at hw
      by_cases hc : n ≤ start + c
      · simp only [hc, if_true] at hw
        cases i with
        | zero =>
          simp at hw
          subst hw
          refine ⟨by simp, ?_, hlt⟩
          simp [min_eq_right hc]
        | succ j => simp at hw
      · simp only [hc, if_false] at hw
        cases i with
        | zero =>
          simp at hw
          subst hw
          have h1 : start + c < n := Nat.lt_of_not_le hc
          exact ⟨by simp, by simp [min_eq_left (Nat.le_of_lt h1)], hlt⟩
        | succ j =>
          simp only [List.getElem?_cons_succ] at hw
          have := ih (start + (c - o)) j w (by omega) hw
          refine ⟨?_, this.2.1, this.2.2⟩
          rw [this.1]
          ring
    · rw [chunkStep_of_ge _ (Nat.le_of_not_lt hlt)] at hw
      simp at hw

theorem chunkStep_covers {n c o : Nat} (hoc : o < c) :
    ∀ fuel start t, n ≤ start + fuel → start ≤ t → t < n →
      ∃ w ∈ chunkStep n c o fuel start, w.1 ≤ t ∧ t < w.2 := by
  intro fuel
  induction fuel with
  | zero => intro start t hfuel hst htn; omega
  | succ f ih =>
    intro start t hfuel hst htn
    have hlt : start < n := Nat.lt_of_le_of_lt hst htn
    rw [chunkStep_of_lt f hlt]
    by_cases hc : n ≤ start + c
    · exact ⟨(start, n), by simp [hc], hst, htn⟩
    · simp only [hc, if_false]
      by_cases htc : t < start + c
      · exact ⟨(start, start + c), by simp, hst, htc⟩
      · have hs2 : start + (c - o) ≤ t := by omega
        obtain ⟨w, hmem, hw⟩ := ih (start + (c - o)) t (by omega) hs2 htn
        exact ⟨w, List.mem_cons_of_mem _ hmem, hw⟩

theorem chunkStep_getLast {n c o : Nat} (hoc : o < c) :
    ∀ fuel start, n ≤ start + fuel → start < n →
      ∃ w, (chunkStep n c o fuel start).getLast? = some w ∧ w.2 = n := by
  intro fuel
  induction fuel with
  | zero => intro start hfuel hlt; omega
  | succ f ih =>
    intro start hfuel hlt
    rw [chunkStep_of_lt f hlt]
    by_cases hc : n ≤ start + c
    · exact ⟨(start, n), by simp [hc], rfl⟩
    · simp only [hc, if_false]
      have h1 : start + c < n := Nat.lt_of_not_le hc
      have hs2 : start + (c - o) < n := by omega
      obtain ⟨w, hlast, hw⟩ := ih (start + (c - o)) (by omega) hs2
      refine ⟨w, ?_, hw⟩
      have hne := @chunkStep_ne_nil n c o f (start + (c - o)) (by omega) hs2
      obtain ⟨b, l, hbl⟩ := List.exists_cons_of_ne_nil hne
      rw [hbl] at hlast ⊢
      rw [List.getLast?_cons_cons]
      exact hlast

theorem chunkStep_consec {n c o : Nat} (hoc : o < c) :
    ∀ fuel start i w w', n ≤ start + fuel →
      (chunkStep n c o fuel start)[i]? = some w →
      (chunkStep n c o fuel start)[i + 1]? = some w' →
      w'.1 = w.1 + (c - o) ∧ w.2 = w'.1 + o ∧ w.2 ≤ w'.2 := by
  intro fuel
  induction fuel with
  | zero =>
    intro start i w w' hfuel hw hw'
    simp [chunkStep] at hw
  | succ f ih =>
    intro start i w w' hfuel hw hw'
    by_cases hlt : start < n
    · rw [chunkStep_of_lt f hlt] at hw hw'
      by_cases hc : n ≤ start + c
      · simp only [hc, if_true] at hw hw'
        rcases i with _ | j <;> simp at hw'
      · simp only [hc, if_false] at hw hw'
        have h1 : start + c < n := Nat.lt_of_not_le hc
        cases i with
        | zero =>
          simp at hw hw'
          subst hw
          have hg := chunkStep_getElem hoc f (start + (c - o)) 0 w' (by omega) hw'
          refine ⟨by simpa using hg.1, ?_, ?_⟩
          · rw [hg.1]; omega
          · rw [hg.2.1, hg.1]
            have : start + c ≤ start + (c - o) + 0 * (c - o) + c := by omega
            exact le_min (by omega) (Nat.le_of_lt h1)
        | succ j =>
          simp only [List.getElem?_cons_succ] at hw hw'
          exact ih (start + (c - o)) j w w' (by omega) hw hw'
    · rw [chunkStep_of_ge _ (Nat.le_of_not_lt hlt)] at hw
      simp at hw

theorem chunkWindows_getElem {n c o : Nat} (hoc : o < c) {i : Nat} {w : Nat × Nat}
    (hw : (chunkWindows n c o)[i]? = some w) :
    w.1 = i * (c - o) ∧ w.2 = min (w.1 + c) n ∧ w.1 < n := by
  have := chunkStep_getElem hoc n 0 i w (by omega) hw
  simpa using this

/-- The five-part window geometry of `chunk_text`, as amended: starts are
successive multiples of the stride, windows cover exactly the tokens of the
input, consecutive windows share exactly `chunk_overlap` tokens, and — when
`chunk_size ≥ 2 * chunk_overlap` — any two windows containing the same token
are consecutive (no token lies in more than two windows). -/
def ChunkWindowsGeometry (n c o : Nat) : Prop :=
  (∀ i w, (chunkWindows n c o)[i]? = some w →
      w.1 = i * (c - o) ∧ w.2 = min (w.1 + c) n) ∧
  (∀ t, t < n → ∃ w ∈ chunkWindows n c o, w.1 ≤ t ∧ t < w.2) ∧
  (∀ w ∈ chunkWindows n c o, w.2 ≤ n) ∧
  (∀ i w w', (chunkWindows n c o)[i]? = some w →
      (chunkWindows n c o)[i + 1]? = some w' →
      (Finset.Ico w.1 w.2 ∩ Finset.Ico w'.1 w'.2).card = o) ∧
  (2 * o ≤ c →
    ∀ t i j w w', i < j →
      (chunkWindows n c o)[i]? = some w →
      (chunkWindows n c o)[j]? = some w' →
      w.1 ≤ t → t < w.2 → w'.1 ≤ t → t < w'.2 → j = i + 1)

/-- C1 (amended): for a non-empty tokenization and `chunk_size > chunk_overlap ≥ 0`,
the token windows of `chunk_text` start at successive multiples of the stride
`chunk_size - chunk_overlap`, together cover every token of the input exactly,
and each consecutive pair of windows shares exactly `chunk_overlap` tokens;
the further conjunct that no token belongs to more than two windows (every
overlap region lies in exactly two consecutive chunks) holds provided
`chunk_size ≥ 2 * chunk_overlap` — without that proviso it is refuted by
`C1_token_in_three_windows_counterexample`. -/
theorem C1_chunk_windows_geometry (tokens : List Nat) (c o : Nat)
    (htok : tokens ≠ []) (hoc : o < c) :
    ChunkWindowsGeometry tokens.length c o := by
  have hn : 0 < tokens.length := List.length_pos.mpr htok
  refine ⟨?_, ?_, ?_, ?_, ?_⟩
  · intro i w hw
    exact ⟨(chunkWindows_getElem hoc hw).1, (chunkWindows_getElem hoc hw).2.1⟩
  · intro t ht
    have := chunkStep_covers hoc tokens.length 0 t (by omega) (by omega) ht
    simpa [chunkWindows] using this
  · intro w hw
    obtain ⟨i, hi⟩ := List.mem_iff_getElem?.mp hw
    have := (chunkWindows_getElem hoc hi).2.1
    omega
  · intro i w w' hw hw'
    have hcon := chunkStep_consec hoc tokens.length 0 i w w' (by omega) hw hw'
    obtain ⟨h1, h2, h3⟩ := hcon
    have hle1 : w.1 ≤ w'.1 := by omega
    rw [Finset.Ico_inter_Ico, max_eq_right hle1, min_eq_left h3, Nat.card_Ico]
    omega
  · intro h2o t i j w w' hij hw hw' htw1 htw2 htw'1 htw'2
    by_contra hne
    have hj : i + 2 ≤ j := by omega
    obtain ⟨ha, hb, -⟩ := chunkWindows_getElem hoc hw
    obtain ⟨ha', -, -⟩ := chunkWindows_getElem hoc hw'
    have hkey : i * (c - o) + 2 * (c - o) ≤ j * (c - o) := by
      have := Nat.mul_le_mul_right (c - o) hj
      calc i * (c - o) + 2 * (c - o) = (i + 2) * (c - o) := by ring
        _ ≤ j * (c - o) := this
    have hwub : w.2 ≤ w.1 + c := by rw [hb]; exact min_le_left _ _
    omega

/-- C1 counterexample: with `chunk_size = 3`, `chunk_overlap = 2` and five
tokens, the loop of `chunk_text` emits the windows `[0,3)`, `[1,4)`, `[2,5)`,
and token `2` belongs to all three of them, so a token can belong to more
than two windows and an overlap region can appear in three chunks. -/
theorem C1_token_in_three_windows_counterexample :
    chunkWindows 5 3 2 = [(0, 3), (1, 4), (2, 5)] ∧
    ((chunkWindows 5 3 2).filter
      (fun w => decide (w.1 ≤ 2 ∧ 2 < w.2))).length = 3 := by
  decide

theorem C1_chunk_windows_geometry_witness :
    ([1, 2, 3, 4, 5] : List Nat) ≠ [] ∧ 1 < 3 ∧
    ChunkWindowsGeometry ([1, 2, 3, 4, 5] : List Nat).length 3 1 :=
  ⟨by decide, by decide, C1_chunk_windows_geometry [1, 2, 3, 4, 5] 3 1 (by decide) (by decide)⟩

/-- C2: for `chunk_size > chunk_overlap ≥ 0` and a non-empty tokenization,
`chunk_text` returns a non-empty chunk sequence, every chunk's underlying
token slice has length at most `chunk_size`, and the last window's end index
equals the total token count (the final chunk is the unpadded tail). -/
theorem C2_chunk_text_bounds (tokens : List Nat) (c o : Nat)
    (htok : tokens ≠ []) (hoc : o < c) :
    ∃ cs, chunk_text tokens c o = Except.ok cs ∧ cs ≠ [] ∧
      (∀ ch ∈ cs, ch.length ≤ c) ∧
      ∃ w, (chunkWindows tokens.length c o).getLast? = some w ∧
        w.2 = tokens.length := by
  have hn : 0 < tokens.length := List.length_pos.mpr htok
  have hco : ¬ c ≤ o := Nat.not_le.2 hoc
  have hte : ¬ tokens.isEmpty := by simpa [List.isEmpty_iff] using htok
  have hwin : chunkWindows tokens.length c o ≠ [] :=
    chunkStep_ne_nil tokens.length 0 (by omega) hn
  refine ⟨(chunkWindows tokens.length c o).map
      (fun w => (tokens.drop w.1).take (w.2 - w.1)), ?_, ?_, ?_, ?_⟩
  · simp [chunk_text, hco, hte]
  · simpa using hwin
  · intro ch hch
    obtain ⟨w, hwmem, rfl⟩ := List.mem_map.mp hch
    obtain ⟨i, hi⟩ := List.mem_iff_getElem?.mp hwmem
    have hub : w.2 ≤ w.1 + c := by
      rw [(chunkWindows_getElem hoc hi).2.1]; exact min_le_left _ _
    simp only [List.length_take, List.length_drop]
    omega
  · exact chunkStep_getLast hoc tokens.length 0 (by omega) hn

theorem C2_chunk_text_bounds_witness :
    ([1, 2, 3] : List Nat) ≠ [] ∧ 0 < 2 ∧
    (∃ cs, chunk_text [1, 2, 3] 2 0 = Except.ok cs ∧ cs ≠ [] ∧
      (∀ ch ∈ cs, ch.length ≤ 2) ∧
      ∃ w, (chunkWindows ([1, 2, 3] : List Nat).length 2 0).getLast? = some w ∧
        w.2 = ([1, 2, 3] : List Nat).length) :=
  ⟨by decide, by decide, C2_chunk_text_bounds [1, 2, 3] 2 0 (by decide) (by decide)⟩

/-- C7: `chunk_text` fails with the `InvalidArgument` error
(`ValueError("Chunk overlap must be less than chunk size.")`) exactly when
`chunk_overlap ≥ chunk_size` — covering both equality and strict excess —
for every input text including the empty one, and never raises it when
`chunk_overlap < chunk_size`. -/
theorem C7_chunk_text_validation (tokens : List Nat) (c o : Nat) :
    (c ≤ o → chunk_text tokens c o = Except.error ChunkError.invalidArgument) ∧
    (o < c → ∃ cs, chunk_text tokens c o = Except.ok cs) := by
  constructor
  · intro h
    simp [chunk_text, h]
  · intro h
    have hco : ¬ c ≤ o := Nat.not_le.2 h
    by_cases he : tokens.isEmpty
    · exact ⟨[], by simp [chunk_text, hco, he]⟩
    · exact ⟨(chunkWindows tokens.length c o).map
        (fun w => (tokens.drop w.1).take (w.2 - w.1)), by simp [chunk_text, hco, he]⟩

theorem C7_chunk_text_validation_witness :
    chunk_text [7] 2 2 = Except.error ChunkError.invalidArgument ∧
    chunk_text [7] 2 3 = Except.error ChunkError.invalidArgument ∧
    (∃ cs, chunk_text [7] 3 2 = Except.ok cs) :=
  ⟨(C7_chunk_text_validation [7] 2 2).1 (by decide),
   (C7_chunk_text_validation [7] 2 3).1 (by decide),
   (C7_chunk_text_validation [7] 3 2).2 (by decide)⟩

/-- C10: for `chunk_overlap < chunk_size` the chunking loop terminates — the
per-iteration advance `chunk_size - chunk_overlap` is at least one, so the
token count bounds the number of iterations: any fuel of at least
`tokens.length` iterations yields the same (settled) window list. -/
theorem C10_chunk_loop_terminates (tokens : List Nat) (c o : Nat) (hoc : o < c) :
    0 < c - o ∧
    ∀ fuel, tokens.length ≤ fuel →
      chunkStep tokens.length c o fuel 0 = chunkWindows tokens.length c o := by
  refine ⟨by omega, ?_⟩
  intro fuel hf
  exact chunkStep_fuel_congr hoc fuel tokens.length 0 (by omega) (by omega)

theorem C10_chunk_loop_terminates_witness :
    1 < 2 ∧
    (0 < 2 - 1 ∧
    ∀ fuel, ([4, 5] : List Nat).length ≤ fuel →
      chunkStep ([4, 5] : List Nat).length 2 1 fuel 0 =
        chunkWindows ([4, 5] : List Nat).length 2 1) :=
  ⟨by decide, C10_chunk_loop_terminates [4, 5] 2 1 (by decide)⟩

/-- Models Python `str.strip()` as used by `RAG._process_and_ingest`
(`src/rag_mcp/rag.py`, line 88): drop leading and trailing whitespace
characters, so that `not text.strip()` holds exactly when the text is empty
or whitespace-only. -/
def pyStrip (s : String) : String :=
  String.mk
    (((s.data.dropWhile Char.isWhitespace).reverse.dropWhile
      Char.isWhitespace).reverse)

/-- Python `",".join(tags)` on the underlying character lists
(`src/rag_mcp/rag.py`, line 126). -/
def pyJoinComma : List (List Char) → List Char
  | [] => []
  | [t] => t
  | t :: ts => t ++ ',' :: pyJoinComma ts

/-- Python `s.split(",")` on the underlying character list, as performed by
`QueryResult.to_dict` (`src/rag_mcp/rag.py`, line 59). -/
def pySplitComma : List Char → List (List Char)
  | [] => [[]]
  | ch :: cs =>
    match pySplitComma cs with
    | [] => [[ch]]
    | r :: rs => if ch = ',' then [] :: r :: rs else (ch :: r) :: rs

/-- The comma-joined string stored under the metadata key `tags`:
`metadata["tags"] = ",".join(tags)` (`src/rag_mcp/rag.py`, line 126). -/
def joinTags (ts : List String) : String :=
  String.mk (pyJoinComma (ts.map String.data))

/-- The split performed by `QueryResult.to_dict` when the stored tags value
is a string: `result["metadata"]["tags"].split(",")` (`src/rag_mcp/rag.py`,
lines 58-59). -/
def splitTags (s : String) : List String :=
  (pySplitComma s.data).map String.mk

/-- Diagnostics emitted by the ingest pipeline of `RAG` (the logger calls in
`src/rag_mcp/rag.py`).  The clamp warning carries the requested and
effective chunk sizes it names (lines 97-101). -/
inductive LogMsg where
  | emptyTextWarning (source : String)
  | clampWarning (requested effective : Nat)
  | noChunksWarning (source : String)
  | ingestedInfo (count : Nat) (source : String)
  deriving DecidableEq

/-- Per-chunk metadata built by `RAG._process_and_ingest`
(`src/rag_mcp/rag.py`, lines 117-127): source name, zero-based chunk index,
the single per-call timestamp, and — when tags were supplied and non-empty —
the comma-joined tags string. -/
structure ChunkMeta where
  source : String
  chunk_index : Nat
  timestamp : String
  tags : Option String
  deriving DecidableEq

/-- Observable effects of one `RAG._process_and_ingest` call: the
diagnostics logged, the `(chunk_size, chunk_overlap)` pair passed to
`TextChunker.chunk_text` (when reached), the chunk batch passed to
`EmbeddingModel.embed` (when reached), and the `(documents, metadatas)`
batch passed to `VectorStore.add_documents` (when reached). -/
structure IngestEffects where
  logs : List LogMsg
  chunkerCall : Option (Nat × Nat)
  embedCall : Option (List (List Nat))
  storeAdd : Option (List (List Nat) × List ChunkMeta)
  deriving DecidableEq

/-- `RAG._process_and_ingest` (`src/rag_mcp/rag.py`, lines 79-132) over the
token-level chunker model.  `encode` stands for the tokenizer collaborator
inside `TextChunker`, `max_input_tokens` for
`self.embedding_model.max_input_tokens`, and `timestamp` for
`datetime.datetime.now().isoformat()` captured once per call.  Documents
are carried as token slices, decoding being the tokenizer's own inverse
step. -/
def process_and_ingest (encode : String → List Nat) (max_input_tokens : Nat)
    (text source_name : String) (chunk_size chunk_overlap : Nat)
    (tags : Option (List String)) (timestamp : String) :
    Except ChunkError IngestEffects :=
  if pyStrip text = "" then
    Except.ok ⟨[LogMsg.emptyTextWarning source_name], none, none, none⟩
  else
    let effective_chunk_size := min chunk_size max_input_tokens
    let clampLogs :=
      if effective_chunk_size < chunk_size then
        [LogMsg.clampWarning chunk_size effective_chunk_size]
      else []
    match chunk_text (encode text) effective_chunk_size chunk_overlap with
    | Except.error e => Except.error e
    | Except.ok chunks =>
      if chunks.isEmpty then
        Except.ok ⟨clampLogs ++ [LogMsg.noChunksWarning source_name],
          some (effective_chunk_size, chunk_overlap), none, none⟩
      else
        let metadatas := (List.range chunks.length).map (fun i =>
          ChunkMeta.mk source_name i timestamp
            (match tags with
             | none => none
             | some ts => if ts.isEmpty then none else some (joinTags ts)))
        Except.ok ⟨clampLogs ++ [LogMsg.ingestedInfo chunks.length source_name],
          some (effective_chunk_size, chunk_overlap),
          some chunks,
          some (chunks, metadatas)⟩

/-- `RAG.__init__`, line 77: the default chunk size is the embedding model's
`max_input_tokens`. -/
def default_chunk_size (max_input_tokens : Nat) : Nat := max_input_tokens

/-- `RAG.ingest_string` (`src/rag_mcp/rag.py`, lines 134-154): resolves the
source name and the actual chunk size (the caller's value when given, else
the default fixed in `__init__`) and delegates to `_process_and_ingest`. -/
def ingest_string (encode : String → List Nat) (max_input_tokens : Nat)
    (text_content : String) (chunk_size : Option Nat) (chunk_overlap : Nat)
    (source_name : Option String) (tags : Option (List String))
    (timestamp : String) : Except ChunkError IngestEffects :=
  let ingested_source_name := source_name.getD "string_input"
  let actual_chunk_size := chunk_size.getD (default_chunk_size max_input_tokens)
  process_and_ingest encode max_input_tokens text_content ingested_source_name
    actual_chunk_size chunk_overlap tags timestamp

/-- Applying an ingest call's store effect to the persisted collection:
`VectorStore.add_documents` appends the batch, and an ingest call that never
reaches the store leaves the collection unchanged. -/
def applyStoreEffect (records : List (List Nat × ChunkMeta))
    (eff : IngestEffects) : List (List Nat × ChunkMeta) :=
  match eff.storeAdd with
  | none => records
  | some (docs, metas) => records ++ docs.zip metas

/-- The tags list produced by `QueryResult.to_dict` from a chunk's
metadata: a stored tags string is split on commas (`src/rag_mcp/rag.py`,
lines 57-59). -/
def to_dict_tags (m : ChunkMeta) : Option (List String) :=
  m.tags.map splitTags

/-- The fallback ids generated by `VectorStore.add_documents` when the
caller passes no ids: `doc_i` for `i` in `range(len(documents))`
(`src/rag_mcp/vector_store.py`, line 58). -/
def generated_ids (count : Nat) : List String :=
  (List.range count).map (fun i => "doc_" ++ toString i)

/-- The ids actually used by `VectorStore.add_documents`: the Python guard
`if not ids` replaces both a missing and an empty id list by the generated
ones (`src/rag_mcp/vector_store.py`, lines 55-58). -/
def add_documents_ids (documents : List String)
    (ids : Option (List String)) : List String :=
  match ids with
  | none => generated_ids documents.length
  | some l => if l.isEmpty then generated_ids documents.length else l

/-- `ValueError("Lengths of documents, embeddings, metadatas, and ids must
match.")` from `VectorStore.add_documents` (lines 64-71). -/
inductive VSError where
  | lengthMismatch
  deriving DecidableEq

/-- `VectorStore.add_documents` (`src/rag_mcp/vector_store.py`, lines
39-78), with the ChromaDB collection modelled as the list of
`(id, document)` pairs handed to `collection.add`, in insertion order.  A
missing metadata list is padded with `None` to the documents' length, so
only its length matters to the mismatch check. -/
def add_documents {E M : Type} (collection : List (String × String))
    (documents : List String) (embeddings : List E)
    (metadatas : Option (List M)) (ids : Option (List String)) :
    Except VSError (List (String × String)) :=
  let usedIds := add_documents_ids documents ids
  let metadatasLength := match metadatas with
    | none => documents.length
    | some l => l.length
  if documents.length ≠ embeddings.length ∨
      documents.length ≠ metadatasLength ∨
      documents.length ≠ usedIds.length then
    Except.error VSError.lengthMismatch
  else
    Except.ok (collection ++ usedIds.zip documents)

/-- A Python exception as distinguished by the handlers of the ingest path:
`RAG.ingest_file` catches exactly `ValueError`, `RAG.ingest_files` catches
any `Exception`. -/
inductive PyExn where
  | valueError (msg : String)
  | otherError (msg : String)
  deriving DecidableEq

def pyExnMsg : PyExn → String
  | PyExn.valueError m => m
  | PyExn.otherError m => m

/-- One glob-matched path as seen by the loop body of `RAG.ingest_files`:
whether `Path.is_file()` holds, whether `Path.exists()` holds inside
`ingest_file`, and the outcome of the try-block body (text extraction via
`DocumentProcessor.extract_text` followed by `_process_and_ingest`, both
filesystem- and collaborator-dependent). -/
structure FileEntry where
  path : String
  isFile : Bool
  fileExists : Bool
  tryBody : Except PyExn Unit

/-- `RAG.ingest_file` (`src/rag_mcp/rag.py`, lines 156-183) as observed by
its caller: a missing file is logged and the function returns (no
exception); the try-block wraps extraction and processing and
`except ValueError` swallows `ValueError`s — logging and returning normally
— while any other exception propagates. -/
def ingest_file_outcome (e : FileEntry) : Except PyExn Unit :=
  if e.fileExists = false then Except.ok ()
  else
    match e.tryBody with
    | Except.ok _ => Except.ok ()
    | Except.error (PyExn.valueError _) => Except.ok ()
    | Except.error err => Except.error err

/-- The loop of `RAG.ingest_files` (`src/rag_mcp/rag.py`, lines 185-219)
over the already-glob-expanded entries, in order: a non-file path is
recorded as skipped, a file whose `ingest_file` call raises is recorded in
the skipped list with the error text, and every other file is recorded as
ingested. -/
def ingest_files_model : List FileEntry → List String × List String
  | [] => ([], [])
  | e :: rest =>
    let r := ingest_files_model rest
    if e.isFile then
      match ingest_file_outcome e with
      | Except.ok _ => (e.path :: r.1, r.2)
      | Except.error err =>
        (r.1, (e.path ++ " (Error: " ++ pyExnMsg err ++ ")") :: r.2)
    else
      (r.1, (e.path ++ " (Skipped: Not a file)") :: r.2)

/-- The parameters accepted by `EmbeddingModel.embed` beside `self`:
`def embed(self, texts)` (`src/rag_mcp/embedding_model.py`, lines 16-18)
declares no parameter named `show_progress_bar` and no keyword catch-all. -/
def embed_accepted_params : List String := ["texts"]

/-- The keyword arguments `RAG.query` passes to `EmbeddingModel.embed`
beyond the positional text: `show_progress_bar=False`
(`src/rag_mcp/rag.py`, line 224). -/
def query_embed_kwargs : List String := ["show_progress_bar"]

/-- Python raises `TypeError` when a call supplies a keyword argument that
is not among the callee's parameters. -/
inductive PyCallError where
  | typeErrorUnexpectedKwarg (func kwarg : String)
  deriving DecidableEq

/-- A `QueryResult` as constructed by `RAG.query` (`src/rag_mcp/rag.py`,
lines 16-27, 228-237): document text, metadata, distance and 1-based rank.
Distances are kept opaque as integers. -/
structure QueryResultModel where
  document : String
  metadata : ChunkMeta
  distance : Int
  result_number : Nat
  deriving DecidableEq

/-- `RAG.query` (`src/rag_mcp/rag.py`, lines 221-239).  The method first
evaluates `self.embedding_model.embed(query_text, show_progress_bar=False)`;
by Python's calling convention the call raises `TypeError` when a supplied
keyword is not among the callee's parameters.  Otherwise the vector store
is searched and results are numbered from 1 in store order.  `embed_fn`
and `store_query` stand for the two collaborators. -/
def RAG_query {V : Type} (embed_fn : String → V)
    (store_query : V → Nat → List (String × ChunkMeta × Int))
    (query_text : String) (num_results : Nat) :
    Except PyCallError (List QueryResultModel) :=
  if query_embed_kwargs.all (fun k => embed_accepted_params.contains k) then
    let query_embedding := embed_fn query_text
    let results := store_query query_embedding num_results
    Except.ok (((List.range results.length).zip results).map
      (fun p => QueryResultModel.mk p.2.1 p.2.2.1 p.2.2.2 (p.1 + 1)))
  else
    Except.error (PyCallError.typeErrorUnexpectedKwarg "embed" "show_progress_bar")

theorem pySplitComma_ne_nil (l : List Char) : pySplitComma l ≠ [] := by
  cases l with
  | nil => simp [pySplitComma]
  | cons ch cs =>
    simp only [pySplitComma]
    cases h : pySplitComma cs with
    | nil => simp
    | cons r rs => by_cases hc : ch = ',' <;> simp [hc]

theorem pySplitComma_of_not_mem (l : List Char) (h : ',' ∉ l) :
    pySplitComma l = [l] := by
  induction l with
  | nil => rfl
  | cons ch cs ih =>
    have hch : ch ≠ ',' := fun hh => h (hh ▸ List.mem_cons_self _ _)
    have hcs : ',' ∉ cs := fun hh => h (List.mem_cons_of_mem _ hh)
    simp [pySplitComma, ih hcs, hch]

theorem pySplitComma_append (t rest : List Char) (h : ',' ∉ t) :
    pySplitComma (t ++ ',' :: rest) = t :: pySplitComma rest := by
  induction t with
  | nil =>
    simp only [List.nil_append, pySplitComma]
    cases hsr : pySplitComma rest with
    | nil => exact absurd hsr (pySplitComma_ne_nil rest)
    | cons r rs => simp
  | cons ch t ih =>
    have hch : ch ≠ ',' := fun hh => h (hh ▸ List.mem_cons_self _ _)
    have ht : ',' ∉ t := fun hh => h (List.mem_cons_of_mem _ hh)
    show pySplitComma (ch :: (t ++ ',' :: rest)) = (ch :: t) :: pySplitComma rest
    simp only [pySplitComma, ih ht]
    simp [hch]

theorem pySplitComma_pyJoinComma (ls : List (List Char)) (hne : ls ≠ [])
    (h : ∀ l ∈ ls, ',' ∉ l) : pySplitComma (pyJoinComma ls) = ls := by
  induction ls with
  | nil => exact absurd rfl hne
  | cons t ts ih =>
    cases ts with
    | nil =>
      simpa [pyJoinComma] using
        pySplitComma_of_not_mem t (h t (List.mem_cons_self _ _))
    | cons t' ts' =>
      have hjoin : pyJoinComma (t :: t' :: ts') = t ++ ',' :: pyJoinComma (t' :: ts') := by
        simp [pyJoinComma]
      rw [hjoin, pySplitComma_append t _ (h t (List.mem_cons_self _ _)),
        ih (by simp) (fun l hl => h l (List.mem_cons_of_mem _ hl))]

theorem splitTags_joinTags (ts : List String) (hne : ts ≠ [])
    (h : ∀ t ∈ ts, ',' ∉ t.data) : splitTags (joinTags ts) = ts := by
  show (pySplitComma (pyJoinComma (ts.map String.data))).map String.mk = ts
  rw [pySplitComma_pyJoinComma]
  · rw [List.map_map]
    have hid : (String.mk ∘ String.data) = id := funext (fun s => rfl)
    rw [hid, List.map_id]
  · simpa using hne
  · intro l hl
    obtain ⟨t, ht, rfl⟩ := List.mem_map.mp hl
    exact h t ht

theorem process_and_ingest_chunker_logs (encode : String → List Nat)
    (max_input_tokens : Nat) (text source_name timestamp : String)
    (chunk_size chunk_overlap : Nat) (tags : Option (List String))
    (htext : pyStrip text ≠ "")
    (hov : chunk_overlap < min chunk_size max_input_tokens) :
    ∃ eff, process_and_ingest encode max_input_tokens text source_name
        chunk_size chunk_overlap tags timestamp = Except.ok eff ∧
      eff.chunkerCall = some (min chunk_size max_input_tokens, chunk_overlap) ∧
      (∀ r e, LogMsg.clampWarning r e ∈ eff.logs ↔
        (r = chunk_size ∧ e = min chunk_size max_input_tokens ∧
          min chunk_size max_input_tokens < chunk_size)) := by
  have hco : ¬ min chunk_size max_input_tokens ≤ chunk_overlap := Nat.not_le.2 hov
  have hlogs : ∀ tailmsg : LogMsg, (∀ r e : Nat, tailmsg ≠ LogMsg.clampWarning r e) →
      ∀ r e, LogMsg.clampWarning r e ∈
          ((if min chunk_size max_input_tokens < chunk_size then
              [LogMsg.clampWarning chunk_size (min chunk_size max_input_tokens)]
            else []) ++ [tailmsg]) ↔
        (r = chunk_size ∧ e = min chunk_size max_input_tokens ∧
          min chunk_size max_input_tokens < chunk_size) := by
    intro tailmsg htail r e
    constructor
    · intro hmem
      rcases List.mem_append.mp hmem with hm | hm
      · by_cases hclamp : min chunk_size max_input_tokens < chunk_size
        · rw [if_pos hclamp] at hm
          have h12 := List.mem_singleton.mp hm
          injection h12 with h1 h2
          exact ⟨h1, h2, hclamp⟩
        · rw [if_neg hclamp] at hm
          exact absurd hm (List.not_mem_nil _)
      · have h12 := List.mem_singleton.mp hm
        exact absurd h12.symm (htail r e)
    · rintro ⟨rfl, rfl, hclamp⟩
      exact List.mem_append.mpr (Or.inl (by
        rw [if_pos hclamp]; exact List.mem_singleton_self _))
  by_cases hE : (encode text).isEmpty
  · have hchunk : chunk_text (encode text) (min chunk_size max_input_tokens)
        chunk_overlap = Except.ok [] := by
      simp [chunk_text, hco, hE]
    refine ⟨⟨(if min chunk_size max_input_tokens < chunk_size then
          [LogMsg.clampWarning chunk_size (min chunk_size max_input_tokens)]
        else []) ++ [LogMsg.noChunksWarning source_name],
        some (min chunk_size max_input_tokens, chunk_overlap), none, none⟩,
      ?_, rfl, hlogs _ (by intro r e h; cases h)⟩
    unfold process_and_ingest
    rw [if_neg htext]
    dsimp only
    rw [hchunk]
    rfl
  · have hchunk : chunk_text (encode text) (min chunk_size max_input_tokens)
        chunk_overlap = Except.ok
          ((chunkWindows (encode text).length (min chunk_size max_input_tokens)
            chunk_overlap).map
            (fun w => ((encode text).drop w.1).take (w.2 - w.1))) := by
      simp [chunk_text, hco, hE]
    have hn : 0 < (encode text).length := by
      cases henc : encode text with
      | nil => rw [henc] at hE; simp at hE
      | cons a l => simp [henc]
    have hwin : chunkWindows (encode text).length
        (min chunk_size max_input_tokens) chunk_overlap ≠ [] :=
      chunkStep_ne_nil (encode text).length 0 (by omega) hn
    have hCSE : ((chunkWindows (encode text).length
        (min chunk_size max_input_tokens) chunk_overlap).map
          (fun w => ((encode text).drop w.1).take (w.2 - w.1))).isEmpty = false := by
      simpa [List.isEmpty_iff] using hwin
    refine ⟨⟨(if min chunk_size max_input_tokens < chunk_size then
          [LogMsg.clampWarning chunk_size (min chunk_size max_input_tokens)]
        else []) ++ [LogMsg.ingestedInfo ((chunkWindows (encode text).length
            (min chunk_size max_input_tokens) chunk_overlap).map
            (fun w => ((encode text).drop w.1).take (w.2 - w.1))).length source_name],
        some (min chunk_size max_input_tokens, chunk_overlap),
        some ((chunkWindows (encode text).length (min chunk_size max_input_tokens)
            chunk_overlap).map
            (fun w => ((encode text).drop w.1).take (w.2 - w.1))),
        some (((chunkWindows (encode text).length (min chunk_size max_input_tokens)
            chunk_overlap).map
            (fun w => ((encode text).drop w.1).take (w.2 - w.1))),
          (List.range ((chunkWindows (encode text).length
              (min chunk_size max_input_tokens) chunk_overlap).map
              (fun w => ((encode text).drop w.1).take (w.2 - w.1))).length).map
            (fun i => ChunkMeta.mk source_name i timestamp
              (match tags with
               | none => none
               | some ts => if ts.isEmpty then none else some (joinTags ts))))⟩,
      ?_, rfl, hlogs _ (by intro r e h; cases h)⟩
    unfold process_and_ingest
    rw [if_neg htext]
    dsimp only
    rw [hchunk]
    dsimp only
    rw [hCSE]
    rfl

theorem process_and_ingest_chunkerCall_le (encode : String → List Nat)
    (max_input_tokens : Nat) (text source_name timestamp : String)
    (chunk_size chunk_overlap : Nat) (tags : Option (List String))
    (eff : IngestEffects) (sz ov : Nat)
    (hok : process_and_ingest encode max_input_tokens text source_name
      chunk_size chunk_overlap tags timestamp = Except.ok eff)
    (hcall : eff.chunkerCall = some (sz, ov)) : sz ≤ max_input_tokens := by
  by_cases htext : pyStrip text = ""
  · simp [process_and_ingest, htext] at hok
    rw [← hok] at hcall
    simp at hcall
  · simp only [process_and_ingest, htext, if_false] at hok
    cases hchunk : chunk_text (encode text)
        (min chunk_size max_input_tokens) chunk_overlap with
    | error e => rw [hchunk] at hok; cases hok
    | ok chunks =>
      rw [hchunk] at hok
      by_cases hE : chunks.isEmpty <;> simp [hE] at hok <;>
        rw [← hok] at hcall <;> simp at hcall <;> omega

theorem process_and_ingest_store (encode : String → List Nat)
    (max_input_tokens : Nat) (text source_name timestamp : String)
    (chunk_size chunk_overlap : Nat) (tags : Option (List String))
    (htext : pyStrip text ≠ "")
    (hov : chunk_overlap < min chunk_size max_input_tokens)
    (htok : encode text ≠ []) :
    ∃ eff chunks, process_and_ingest encode max_input_tokens text source_name
        chunk_size chunk_overlap tags timestamp = Except.ok eff ∧
      chunks ≠ [] ∧
      eff.storeAdd = some (chunks, (List.range chunks.length).map (fun i =>
        ChunkMeta.mk source_name i timestamp
          (match tags with
           | none => none
           | some ts => if ts.isEmpty then none else some (joinTags ts)))) := by
  have hco : ¬ min chunk_size max_input_tokens ≤ chunk_overlap := Nat.not_le.2 hov
  have hE : (encode text).isEmpty = false := by
    simpa [List.isEmpty_iff] using htok
  have hchunk : chunk_text (encode text) (min chunk_size max_input_tokens)
      chunk_overlap = Except.ok
        ((chunkWindows (encode text).length (min chunk_size max_input_tokens)
          chunk_overlap).map
          (fun w => ((encode text).drop w.1).take (w.2 - w.1))) := by
    simp [chunk_text, hco, hE]
  have hn : 0 < (encode text).length := List.length_pos.mpr htok
  have hwin : chunkWindows (encode text).length
      (min chunk_size max_input_tokens) chunk_overlap ≠ [] :=
    chunkStep_ne_nil (encode text).length 0 (by omega) hn
  have hCSE : ((chunkWindows (encode text).length
      (min chunk_size max_input_tokens) chunk_overlap).map
        (fun w => ((encode text).drop w.1).take (w.2 - w.1))).isEmpty = false := by
    simpa [List.isEmpty_iff] using hwin
  refine ⟨⟨(if min chunk_size max_input_tokens < chunk_size then
        [LogMsg.clampWarning chunk_size (min chunk_size max_input_tokens)]
      else []) ++ [LogMsg.ingestedInfo ((chunkWindows (encode text).length
          (min chunk_size max_input_tokens) chunk_overlap).map
          (fun w => ((encode text).drop w.1).take (w.2 - w.1))).length source_name],
      some (min chunk_size max_input_tokens, chunk_overlap),
      some ((chunkWindows (encode text).length (min chunk_size max_input_tokens)
          chunk_overlap).map
          (fun w => ((encode text).drop w.1).take (w.2 - w.1))),
      some (((chunkWindows (encode text).length (min chunk_size max_input_tokens)
          chunk_overlap).map
          (fun w => ((encode text).drop w.1).take (w.2 - w.1))),
        (List.range ((chunkWindows (encode text).length
            (min chunk_size max_input_tokens) chunk_overlap).map
            (fun w => ((encode text).drop w.1).take (w.2 - w.1))).length).map
          (fun i => ChunkMeta.mk source_name i timestamp
            (match tags with
             | none => none
             | some ts => if ts.isEmpty then none else some (joinTags ts))))⟩,
    ((chunkWindows (encode text).length (min chunk_size max_input_tokens)
        chunk_overlap).map
        (fun w => ((encode text).drop w.1).take (w.2 - w.1))),
    ?_, ?_, rfl⟩
  · unfold process_and_ingest
    rw [if_neg htext]
    dsimp only
    rw [hchunk]
    dsimp only
    rw [hCSE]
    rfl
  · intro hmap
    exact hwin (List.map_eq_nil_iff.mp hmap)

/-- The chunk-size negotiation contract of the ingest path: the default for
an omitted `chunk_size`, the clamp with its two-valued warning for an
oversize request, the unchanged use of an in-range request, and the global
capacity bound on whatever reaches the chunker. -/
def EffectiveChunkSizeSpec (encode : String → List Nat)
    (max_input_tokens : Nat) (text : String) (chunk_overlap : Nat)
    (source_name : Option String) (tags : Option (List String))
    (timestamp : String) : Prop :=
  (chunk_overlap < max_input_tokens →
    ∃ eff, ingest_string encode max_input_tokens text none chunk_overlap
        source_name tags timestamp = Except.ok eff ∧
      eff.chunkerCall = some (max_input_tokens, chunk_overlap) ∧
      ∀ r e, LogMsg.clampWarning r e ∉ eff.logs) ∧
  (∀ chunk_size, max_input_tokens < chunk_size →
    chunk_overlap < max_input_tokens →
    ∃ eff, ingest_string encode max_input_tokens text (some chunk_size)
        chunk_overlap source_name tags timestamp = Except.ok eff ∧
      eff.chunkerCall = some (max_input_tokens, chunk_overlap) ∧
      LogMsg.clampWarning chunk_size max_input_tokens ∈ eff.logs) ∧
  (∀ chunk_size, chunk_size ≤ max_input_tokens → chunk_overlap < chunk_size →
    ∃ eff, ingest_string encode max_input_tokens text (some chunk_size)
        chunk_overlap source_name tags timestamp = Except.ok eff ∧
      eff.chunkerCall = some (chunk_size, chunk_overlap) ∧
      ∀ r e, LogMsg.clampWarning r e ∉ eff.logs) ∧
  (∀ chunk_size eff sz ov,
    ingest_string encode max_input_tokens text chunk_size chunk_overlap
        source_name tags timestamp = Except.ok eff →
    eff.chunkerCall = some (sz, ov) → sz ≤ max_input_tokens)

/-- C3: an omitted `chunk_size` defaults to the embedding model's
`max_input_tokens`; a requested size above the maximum is clamped to it,
with a warning naming both the requested and effective values, and the
ingest call still succeeds; an in-range request is used unchanged without a
clamp warning; and no invocation of the chunker ever uses a size above
`max_input_tokens`. -/
theorem C3_effective_chunk_size (encode : String → List Nat)
    (max_input_tokens : Nat) (text : String) (chunk_overlap : Nat)
    (source_name : Option String) (tags : Option (List String))
    (timestamp : String) (htext : pyStrip text ≠ "") :
    EffectiveChunkSizeSpec encode max_input_tokens text chunk_overlap
      source_name tags timestamp := by
  refine ⟨?_, ?_, ?_, ?_⟩
  · intro hov
    have heq : ingest_string encode max_input_tokens text none chunk_overlap
        source_name tags timestamp =
      process_and_ingest encode max_input_tokens text
        (source_name.getD "string_input") max_input_tokens chunk_overlap tags
        timestamp := rfl
    obtain ⟨eff, hok, hcall, hlogs⟩ :=
      process_and_ingest_chunker_logs encode max_input_tokens text
        (source_name.getD "string_input") timestamp max_input_tokens
        chunk_overlap tags htext (by simpa [min_self] using hov)
    refine ⟨eff, heq ▸ hok, by simpa [min_self] using hcall, ?_⟩
    intro r e hmem
    have := (hlogs r e).mp hmem
    simp [min_self] at this
  · intro chunk_size hbig hov
    have hmr : min chunk_size max_input_tokens = max_input_tokens :=
      min_eq_right (Nat.le_of_lt hbig)
    have heq : ingest_string encode max_input_tokens text (some chunk_size)
        chunk_overlap source_name tags timestamp =
      process_and_ingest encode max_input_tokens text
        (source_name.getD "string_input") chunk_size chunk_overlap tags
        timestamp := rfl
    obtain ⟨eff, hok, hcall, hlogs⟩ :=
      process_and_ingest_chunker_logs encode max_input_tokens text
        (source_name.getD "string_input") timestamp chunk_size
        chunk_overlap tags htext (by omega)
    refine ⟨eff, heq ▸ hok, by rw [hcall, hmr], ?_⟩
    exact (hlogs chunk_size max_input_tokens).mpr ⟨rfl, hmr.symm, by omega⟩
  · intro chunk_size hsmall hov
    have hml : min chunk_size max_input_tokens = chunk_size :=
      min_eq_left hsmall
    have heq : ingest_string encode max_input_tokens text (some chunk_size)
        chunk_overlap source_name tags timestamp =
      process_and_ingest encode max_input_tokens text
        (source_name.getD "string_input") chunk_size chunk_overlap tags
        timestamp := rfl
    obtain ⟨eff, hok, hcall, hlogs⟩ :=
      process_and_ingest_chunker_logs encode max_input_tokens text
        (source_name.getD "string_input") timestamp chunk_size
        chunk_overlap tags htext (by omega)
    refine ⟨eff, heq ▸ hok, by rw [hcall, hml], ?_⟩
    intro r e hmem
    have := (hlogs r e).mp hmem
    omega
  · intro chunk_size eff sz ov hok hcall
    have heq : ingest_string encode max_input_tokens text chunk_size
        chunk_overlap source_name tags timestamp =
      process_and_ingest encode max_input_tokens text
        (source_name.getD "string_input")
        (chunk_size.getD (default_chunk_size max_input_tokens)) chunk_overlap
        tags timestamp := rfl
    exact process_and_ingest_chunkerCall_le encode max_input_tokens text
      (source_name.getD "string_input") timestamp
      (chunk_size.getD (default_chunk_size max_input_tokens)) chunk_overlap
      tags eff sz ov (heq ▸ hok) hcall

theorem C3_effective_chunk_size_witness :
    pyStrip "x" ≠ "" ∧
    EffectiveChunkSizeSpec (fun _ => [0]) 3 "x" 1 none none "t" :=
  ⟨by decide, C3_effective_chunk_size (fun _ => [0]) 3 "x" 1 none none "t" (by decide)⟩

/-- C8: empty or whitespace-only text (after stripping) short-circuits the
ingest call with a diagnostic and zero chunks: the chunker, the embedding
collaborator and the vector store are never invoked and the persisted
collection is unchanged. -/
theorem C8_blank_text_short_circuit (encode : String → List Nat)
    (max_input_tokens : Nat) (text timestamp : String)
    (chunk_size : Option Nat) (chunk_overlap : Nat)
    (source_name : Option String) (tags : Option (List String))
    (state : List (List Nat × ChunkMeta)) (hblank : pyStrip text = "") :
    ∃ eff, ingest_string encode max_input_tokens text chunk_size chunk_overlap
        source_name tags timestamp = Except.ok eff ∧
      eff.logs = [LogMsg.emptyTextWarning (source_name.getD "string_input")] ∧
      eff.chunkerCall = none ∧ eff.embedCall = none ∧ eff.storeAdd = none ∧
      applyStoreEffect state eff = state := by
  refine ⟨⟨[LogMsg.emptyTextWarning (source_name.getD "string_input")],
    none, none, none⟩, ?_, rfl, rfl, rfl, rfl, rfl⟩
  show process_and_ingest encode max_input_tokens text
      (source_name.getD "string_input")
      (chunk_size.getD (default_chunk_size max_input_tokens)) chunk_overlap
      tags timestamp = _
  unfold process_and_ingest
  rw [if_pos hblank]

theorem C8_blank_text_short_circuit_witness :
    pyStrip "" = "" ∧
    (∃ eff, ingest_string (fun _ => [0]) 3 "" (some 2) 1 none none "t" =
        Except.ok eff ∧
      eff.logs = [LogMsg.emptyTextWarning ((none : Option String).getD "string_input")] ∧
      eff.chunkerCall = none ∧ eff.embedCall = none ∧ eff.storeAdd = none ∧
      applyStoreEffect [([1], ChunkMeta.mk "s" 0 "t" none)] eff =
        [([1], ChunkMeta.mk "s" 0 "t" none)]) :=
  ⟨rfl, C8_blank_text_short_circuit (fun _ => [0]) 3 "" "t" (some 2) 1 none
    none [([1], ChunkMeta.mk "s" 0 "t" none)] rfl⟩

/-- C9: ingesting with a non-empty, comma-free tag list persists the tags of
every produced chunk as the single comma-joined string, and the split
performed by `QueryResult.to_dict` on read recovers exactly the original
ordered list. -/
theorem C9_tags_round_trip (encode : String → List Nat)
    (max_input_tokens : Nat) (text source_name timestamp : String)
    (chunk_size chunk_overlap : Nat) (ts : List String)
    (htext : pyStrip text ≠ "")
    (hov : chunk_overlap < min chunk_size max_input_tokens)
    (htok : encode text ≠ [])
    (hne : ts ≠ []) (hcomma : ∀ t ∈ ts, ',' ∉ t.data) :
    ∃ eff chunks metas,
      process_and_ingest encode max_input_tokens text source_name chunk_size
        chunk_overlap (some ts) timestamp = Except.ok eff ∧
      eff.storeAdd = some (chunks, metas) ∧
      metas ≠ [] ∧
      ∀ m ∈ metas, m.tags = some (joinTags ts) ∧ to_dict_tags m = some ts := by
  obtain ⟨eff, chunks, hok, hchne, hstore⟩ :=
    process_and_ingest_store encode max_input_tokens text source_name
      timestamp chunk_size chunk_overlap (some ts) htext hov htok
  have hts : ts.isEmpty = false := by simpa [List.isEmpty_iff] using hne
  refine ⟨eff, chunks,
    (List.range chunks.length).map (fun i =>
      ChunkMeta.mk source_name i timestamp (some (joinTags ts))), hok, ?_, ?_, ?_⟩
  · rw [hstore]
    simp [hts]
  · intro hmap
    have : List.range chunks.length = [] := List.map_eq_nil_iff.mp hmap
    rw [List.range_eq_nil] at this
    exact hchne (List.length_eq_zero.mp this)
  · intro m hm
    obtain ⟨i, hi, rfl⟩ := List.mem_map.mp hm
    refine ⟨rfl, ?_⟩
    show some (splitTags (joinTags ts)) = some ts
    rw [splitTags_joinTags ts hne hcomma]

theorem C9_tags_round_trip_witness :
    pyStrip "x" ≠ "" ∧ 0 < min 2 2 ∧ (fun _ : String => [3, 4]) "x" ≠ [] ∧
    (["a", "b"] : List String) ≠ [] ∧
    (∀ t ∈ (["a", "b"] : List String), ',' ∉ t.data) ∧
    (∃ eff chunks metas,
      process_and_ingest (fun _ => [3, 4]) 2 "x" "s" 2 0 (some ["a", "b"])
        "t" = Except.ok eff ∧
      eff.storeAdd = some (chunks, metas) ∧
      metas ≠ [] ∧
      ∀ m ∈ metas, m.tags = some (joinTags ["a", "b"]) ∧
        to_dict_tags m = some ["a", "b"]) :=
  ⟨by decide, by decide, by decide, by decide, by decide,
    C9_tags_round_trip (fun _ => [3, 4]) 2 "x" "s" "t" 2 0 ["a", "b"]
      (by decide) (by decide) (by decide) (by decide) (by decide)⟩

theorem ingest_files_model_cons (e : FileEntry) (rest : List FileEntry) :
    ingest_files_model (e :: rest) =
      if e.isFile then
        match ingest_file_outcome e with
        | Except.ok _ =>
            (e.path :: (ingest_files_model rest).1, (ingest_files_model rest).2)
        | Except.error err =>
            ((ingest_files_model rest).1,
              (e.path ++ " (Error: " ++ pyExnMsg err ++ ")") ::
                (ingest_files_model rest).2)
      else
        ((ingest_files_model rest).1,
          (e.path ++ " (Skipped: Not a file)") :: (ingest_files_model rest).2) :=
  rfl

theorem ingest_files_model_count (entries : List FileEntry) :
    (ingest_files_model entries).1.length +
      (ingest_files_model entries).2.length = entries.length := by
  induction entries with
  | nil => rfl
  | cons e rest ih =>
    rw [ingest_files_model_cons]
    cases hf : e.isFile
    · simp only [hf, Bool.false_eq_true, if_false]
      show (ingest_files_model rest).1.length +
        ((e.path ++ " (Skipped: Not a file)") ::
          (ingest_files_model rest).2).length = (e :: rest).length
      simp only [List.length_cons]
      omega
    · cases hout : ingest_file_outcome e with
      | ok u =>
        simp only [hf, if_true, hout]
        show (e.path :: (ingest_files_model rest).1).length +
          (ingest_files_model rest).2.length = (e :: rest).length
        simp only [List.length_cons]
        omega
      | error err =>
        simp only [hf, if_true, hout]
        show (ingest_files_model rest).1.length +
          ((e.path ++ " (Error: " ++ pyExnMsg err ++ ")") ::
            (ingest_files_model rest).2).length = (e :: rest).length
        simp only [List.length_cons]
        omega

theorem mem_ingest_files_model_fst (entries : List FileEntry) (p : String) :
    p ∈ (ingest_files_model entries).1 ↔
      ∃ e ∈ entries, e.isFile = true ∧
        ingest_file_outcome e = Except.ok () ∧ e.path = p := by
  induction entries with
  | nil => simp [ingest_files_model]
  | cons e rest ih =>
    rw [ingest_files_model_cons]
    cases hf : e.isFile
    · simp only [hf, Bool.false_eq_true, if_false]
      constructor
      · intro hp
        obtain ⟨x, hx, hprop⟩ := ih.mp hp
        exact ⟨x, List.mem_cons_of_mem _ hx, hprop⟩
      · rintro ⟨x, hx, hxf, hxo, hxp⟩
        rcases List.mem_cons.mp hx with rfl | hx2
        · rw [hf] at hxf
          cases hxf
        · exact ih.mpr ⟨x, hx2, hxf, hxo, hxp⟩
    · cases hout : ingest_file_outcome e with
      | ok u =>
        cases u
        simp only [hf, if_true]
        show p ∈ e.path :: (ingest_files_model rest).1 ↔ _
        constructor
        · intro hp
          rcases List.mem_cons.mp hp with rfl | hp2
          · exact ⟨e, List.mem_cons_self _ _, hf, hout, rfl⟩
          · obtain ⟨x, hx, hprop⟩ := ih.mp hp2
            exact ⟨x, List.mem_cons_of_mem _ hx, hprop⟩
        · rintro ⟨x, hx, hxf, hxo, rfl⟩
          rcases List.mem_cons.mp hx with rfl | hx2
          · exact List.mem_cons_self _ _
          · exact List.mem_cons_of_mem _ (ih.mpr ⟨x, hx2, hxf, hxo, rfl⟩)
      | error err =>
        simp only [hf, if_true]
        show p ∈ (ingest_files_model rest).1 ↔ _
        constructor
        · intro hp
          obtain ⟨x, hx, hprop⟩ := ih.mp hp
          exact ⟨x, List.mem_cons_of_mem _ hx, hprop⟩
        · rintro ⟨x, hx, hxf, hxo, rfl⟩
          rcases List.mem_cons.mp hx with rfl | hx2
          · rw [hout] at hxo
            cases hxo
          · exact ih.mpr ⟨x, hx2, hxf, hxo, rfl⟩

theorem ingest_files_model_skipped_mono (e : FileEntry)
    (rest : List FileEntry) (s : String)
    (hs : s ∈ (ingest_files_model rest).2) :
    s ∈ (ingest_files_model (e :: rest)).2 := by
  rw [ingest_files_model_cons]
  cases hf : e.isFile
  · simp only [hf, Bool.false_eq_true, if_false]
    exact List.mem_cons_of_mem _ hs
  · cases hout : ingest_file_outcome e with
    | ok u =>
      simp only [hf, if_true, hout]
      exact hs
    | error err =>
      simp only [hf, if_true, hout]
      exact List.mem_cons_of_mem _ hs

theorem ingest_file_outcome_other (e : FileEntry) (m : String)
    (hfe : e.fileExists = true)
    (htb : e.tryBody = Except.error (PyExn.otherError m)) :
    ingest_file_outcome e = Except.error (PyExn.otherError m) := by
  unfold ingest_file_outcome
  rw [hfe, htb]
  rfl

theorem ingest_files_model_skipped_of_other (entries : List FileEntry)
    (e : FileEntry) (m : String) (hmem : e ∈ entries) (hf : e.isFile = true)
    (hfe : e.fileExists = true)
    (htb : e.tryBody = Except.error (PyExn.otherError m)) :
    (e.path ++ " (Error: " ++ m ++ ")") ∈ (ingest_files_model entries).2 := by
  have hout := ingest_file_outcome_other e m hfe htb
  induction entries with
  | nil => cases hmem
  | cons x rest ih =>
    rcases List.mem_cons.mp hmem with rfl | hmem2
    · rw [ingest_files_model_cons]
      simp only [hf, if_true, hout]
      exact List.mem_cons_self _ _
    · exact ingest_files_model_skipped_mono x rest _ (ih hmem2)

/-- C4 (amended): within one batch `ingest_files` call every glob-matched
entry is accounted for in exactly one of the two returned lists (a per-file
failure never aborts the batch), and a regular file whose processing raises
an exception that is not a `ValueError` — e.g. an embedding or storage
collaborator failure — is recorded in the skipped list together with the
error text and (for distinct paths) never in the ingested list.  Files
whose processing raises a `ValueError` (a missing file or an unsupported
file type) are swallowed inside `ingest_file` and end up in the ingested
list, as `C4_swallowed_value_error_counterexample` shows. -/
theorem C4_batch_failure_accounting (entries : List FileEntry) :
    ((ingest_files_model entries).1.length +
      (ingest_files_model entries).2.length = entries.length) ∧
    (∀ e m, e ∈ entries → e.isFile = true → e.fileExists = true →
      e.tryBody = Except.error (PyExn.otherError m) →
      (e.path ++ " (Error: " ++ m ++ ")") ∈ (ingest_files_model entries).2 ∧
      ((entries.map FileEntry.path).Nodup →
        e.path ∉ (ingest_files_model entries).1)) := by
  refine ⟨ingest_files_model_count entries, ?_⟩
  intro e m hmem hf hfe htb
  refine ⟨ingest_files_model_skipped_of_other entries e m hmem hf hfe htb, ?_⟩
  intro hnd hp
  obtain ⟨x, hx, hxf, hxo, hxp⟩ :=
    (mem_ingest_files_model_fst entries e.path).mp hp
  have hxe : x = e := List.inj_on_of_nodup_map hnd hx hmem hxp
  rw [hxe, ingest_file_outcome_other e m hfe htb] at hxo
  cases hxo

/-- C4 counterexample: a glob-matched regular `.pdf` file whose extraction
raises `ValueError("Unsupported file type: .pdf")` is recorded by
`ingest_files` in the ingested (succeeded) list, not in the skipped list,
because `ingest_file` catches `ValueError` internally and returns
normally. -/
theorem C4_swallowed_value_error_counterexample :
    ingest_files_model
      [⟨"doc.pdf", true, true,
        Except.error (PyExn.valueError "Unsupported file type: .pdf")⟩] =
      (["doc.pdf"], []) := rfl

theorem C4_batch_failure_accounting_witness :
    ((ingest_files_model [⟨"a.txt", true, true,
        Except.error (PyExn.otherError "boom")⟩]).1.length +
      (ingest_files_model [⟨"a.txt", true, true,
        Except.error (PyExn.otherError "boom")⟩]).2.length = 1) ∧
    ("a.txt" ++ " (Error: " ++ "boom" ++ ")") ∈
      (ingest_files_model [⟨"a.txt", true, true,
        Except.error (PyExn.otherError "boom")⟩]).2 ∧
    "a.txt" ∉ (ingest_files_model [⟨"a.txt", true, true,
        Except.error (PyExn.otherError "boom")⟩]).1 :=
  have h := C4_batch_failure_accounting
    [⟨"a.txt", true, true, Except.error (PyExn.otherError "boom")⟩]
  have h2 := h.2 ⟨"a.txt", true, true, Except.error (PyExn.otherError "boom")⟩
    "boom" (List.mem_cons_self _ _) rfl rfl rfl
  ⟨h.1, h2.1, h2.2 (by decide)⟩

/-- C5 counterexample: a first `add_documents` call with omitted ids on an
empty collection stores the generated id `doc_0`; a second call with
omitted ids (re-ingesting a source) generates `doc_0` again, so the ids of
the later call collide with ids already stored instead of forming an
independent set. -/
theorem C5_generated_ids_collide_counterexample :
    add_documents ([] : List (String × String)) ["alpha"] [[0]]
      (none : Option (List ChunkMeta)) none =
      Except.ok [("doc_0", "alpha")] ∧
    add_documents_ids ["beta"] none = ["doc_0"] := by
  constructor <;> rfl

/-- C5 (amended): the ids generated by `add_documents` when the caller
omits ids depend only on the number of documents in the call — they are
`doc_0 .. doc_(k-1)`, independent of the collection's current contents — so
any two calls with non-empty document lists both use the id `doc_0`, and a
later call therefore reuses ids of an earlier one rather than extending the
collection with fresh, collision-free ids. -/
theorem C5_add_documents_ids_reused (docs1 docs2 : List String)
    (h1 : docs1 ≠ []) (h2 : docs2 ≠ []) :
    "doc_0" ∈ add_documents_ids docs1 none ∧
    "doc_0" ∈ add_documents_ids docs2 none ∧
    ∀ (collection : List (String × String)) (embeddings : List (List Nat)),
      docs1.length = embeddings.length →
      add_documents collection docs1 embeddings
        (none : Option (List ChunkMeta)) none =
        Except.ok (collection ++ (generated_ids docs1.length).zip docs1) := by
  have hmem : ∀ docs : List String, docs ≠ [] →
      "doc_0" ∈ add_documents_ids docs none := by
    intro docs hd
    have hpos : 0 < docs.length := List.length_pos.mpr hd
    show "doc_0" ∈ generated_ids docs.length
    exact List.mem_map.mpr ⟨0, List.mem_range.mpr hpos, rfl⟩
  refine ⟨hmem docs1 h1, hmem docs2 h2, ?_⟩
  intro collection embeddings hlen
  have hgl : ∀ k, (generated_ids k).length = k := by
    intro k
    simp [generated_ids]
  simp [add_documents, add_documents_ids, hgl, hlen]

theorem C5_add_documents_ids_reused_witness :
    "doc_0" ∈ add_documents_ids ["alpha"] none ∧
    "doc_0" ∈ add_documents_ids ["beta", "gamma"] none ∧
    ∀ (collection : List (String × String)) (embeddings : List (List Nat)),
      (["alpha"] : List String).length = embeddings.length →
      add_documents collection ["alpha"] embeddings
        (none : Option (List ChunkMeta)) none =
        Except.ok (collection ++
          (generated_ids (["alpha"] : List String).length).zip ["alpha"]) :=
  C5_add_documents_ids_reused ["alpha"] ["beta", "gamma"]
    (by decide) (by decide)

/-- C6: contrary to the claim, `RAG.query` never returns an empty result
list on an empty collection — it raises on every call, because it passes
the keyword argument `show_progress_bar=False` to `EmbeddingModel.embed`,
whose signature `def embed(self, texts)` accepts no such parameter, so
Python raises `TypeError` before the store is ever consulted.  The theorem
holds for every embedding collaborator and every store, in particular for
a store returning no matches (the empty collection). -/
theorem C6_query_always_raises_type_error {V : Type} (embed_fn : String → V)
    (store_query : V → Nat → List (String × ChunkMeta × Int))
    (query_text : String) (num_results : Nat) :
    RAG_query embed_fn store_query query_text num_results =
      Except.error (PyCallError.typeErrorUnexpectedKwarg "embed"
        "show_progress_bar") := rfl

end RagMcp
